import Mathlib

/-!
Verification of the tspconvertcompare document pipeline.

This file gives a shallow embedding of `src/tspconvertcompare/__init__.py`:
the document store (`load_document`, `load`), the reference resolver
(`split_ref`, `load_fragment`), the normalizer (`normalize` via
`iter_normalize`), and the diff filter predicates.

Modelling conventions:
* JSON values are the inductive `Json`; Python `dict`s are association
  lists in insertion order (Python dicts are insertion ordered and have
  unique keys), Python `list`s are `List Json`.
* Python exceptions become `Except Err`; each Python error kind gets an
  `Err` constructor.
* The process-wide caches (`functools.lru_cache` on `load_document` and
  `load_fragment`) and the file system are an explicit `Store` threaded
  through every effectful function.
* In-place mutation of shared dicts is made explicit: `load_fragment`
  mutates the subtree it returns (writing the `__fragment` key), and since
  that subtree is aliased inside the cached document, the embedding
  writes the updated subtree back into the document cache at the walked
  location (`setSteps`).
* Python string operations are re-implemented on `List Char`
  (`String.data`) so that every definition evaluates inside the kernel.
* All numbers appearing in the verified documents are integers, so JSON
  numbers are modelled as `Int`.
-/

inductive Json where
  | null
  | boolv (b : Bool)
  | num (n : Int)
  | str (s : String)
  | arr (items : List Json)
  | obj (fields : List (String × Json))

mutual

def beqJson : Json → Json → Bool
  | .null, .null => true
  | .boolv a, .boolv b => a == b
  | .num a, .num b => a == b
  | .str a, .str b => a.data == b.data
  | .arr a, .arr b => beqJsonList a b
  | .obj a, .obj b => beqJsonFields a b
  | _, _ => false

def beqJsonList : List Json → List Json → Bool
  | [], [] => true
  | a :: as, b :: bs => beqJson a b && beqJsonList as bs
  | _, _ => false

def beqJsonFields : List (String × Json) → List (String × Json) → Bool
  | [], [] => true
  | (k1, v1) :: as, (k2, v2) :: bs => k1.data == k2.data && beqJson v1 v2 && beqJsonFields as bs
  | _, _ => false

end

theorem Json.inductionOn (P : Json → Prop)
    (h1 : P .null) (h2 : ∀ b, P (.boolv b)) (h3 : ∀ n, P (.num n)) (h4 : ∀ s, P (.str s))
    (h5 : ∀ l, (∀ x ∈ l, P x) → P (.arr l))
    (h6 : ∀ fs, (∀ p ∈ fs, P p.2) → P (.obj fs)) : ∀ j, P j := by
  have H : ∀ n (j : Json), sizeOf j ≤ n → P j := by
    intro n
    induction n with
    | zero => intro j hj; cases j <;> simp at hj
    | succ n ih =>
      intro j hj
      cases j with
      | null => exact h1
      | boolv b => exact h2 b
      | num m => exact h3 m
      | str s => exact h4 s
      | arr l =>
        apply h5
        intro x hx
        apply ih
        have := List.sizeOf_lt_of_mem hx
        simp at hj
        omega
      | obj fs =>
        apply h6
        intro p hp
        apply ih
        have hlt := List.sizeOf_lt_of_mem hp
        have hsnd : sizeOf p.2 < sizeOf p := by
          obtain ⟨a, b⟩ := p
          simp
        simp at hj
        omega
  intro j
  exact H (sizeOf j) j le_rfl

theorem beqJson_iff : ∀ a b : Json, beqJson a b = true ↔ a = b := by
  intro a
  induction a using Json.inductionOn with
  | h1 => intro b; cases b <;> simp [beqJson]
  | h2 x => intro b; cases b <;> simp [beqJson]
  | h3 x => intro b; cases b <;> simp [beqJson]
  | h4 x => intro b; cases b <;> simp [beqJson, String.ext_iff]
  | h5 l ih =>
    intro b
    cases b <;> simp [beqJson]
    case arr bs =>
      induction l generalizing bs with
      | nil => cases bs <;> simp [beqJsonList]
      | cons x xs ihl =>
        cases bs with
        | nil => simp [beqJsonList]
        | cons y ys =>
          simp [beqJsonList, ih x (by simp)]
          intro _
          exact ihl (fun z hz => ih z (by simp [hz])) ys
  | h6 fs ih =>
    intro b
    cases b <;> simp [beqJson]
    case obj bs =>
      induction fs generalizing bs with
      | nil => cases bs <;> simp [beqJsonFields]
      | cons p ps ihl =>
        cases bs with
        | nil => simp [beqJsonFields]
        | cons q qs =>
          obtain ⟨k1, v1⟩ := p
          obtain ⟨k2, v2⟩ := q
          simp [beqJsonFields, String.ext_iff, ih ⟨k1, v1⟩ (by simp)]
          intro _ _
          exact ihl (fun z hz => ih z (by simp [hz])) qs

instance : DecidableEq Json := fun a b => decidable_of_iff (beqJson a b = true) (beqJson_iff a b)

instance : BEq Json := ⟨beqJson⟩

instance {ε α : Type} [DecidableEq ε] [DecidableEq α] : DecidableEq (Except ε α) :=
  fun a b =>
    match a, b with
    | .ok x, .ok y => decidable_of_iff (x = y) (by simp)
    | .error e, .error f => decidable_of_iff (e = f) (by simp)
    | .ok _, .error _ => isFalse (by simp)
    | .error _, .ok _ => isFalse (by simp)

/-! ## Python string primitives, re-implemented on `List Char` -/

/-- Python `str.strip()` with no argument: remove ASCII whitespace from both
ends (the verified strings are ASCII, so stripping code points ≤ 32 matches
Python's whitespace set on them). -/
def pyStrip (s : String) : String :=
  ⟨((s.data.dropWhile (fun c => c.toNat ≤ 32)).reverse.dropWhile
      (fun c => c.toNat ≤ 32)).reverse⟩

/-- Lexicographic comparison of code-point sequences; Python's `<` on `str`. -/
def lexLtChars : List Char → List Char → Bool
  | [], [] => false
  | [], _ :: _ => true
  | _ :: _, [] => false
  | a :: as, b :: bs =>
    if a.toNat < b.toNat then true
    else if b.toNat < a.toNat then false
    else lexLtChars as bs

def pyLtStr (a b : String) : Bool := lexLtChars a.data b.data

/-- Whether `pat` is an initial run of `text` (used for Python's
`startswith` and `in`). -/
def leadsWith : List Char → List Char → Bool
  | [], _ => true
  | _ :: _, [] => false
  | a :: as, b :: bs => a == b && leadsWith as bs

def pyStartsWith (s pre : String) : Bool := leadsWith pre.data s.data

/-- Python's substring containment `pat in hay`. -/
def hasSub (pat : List Char) : List Char → Bool
  | [] => leadsWith pat []
  | c :: rest => leadsWith pat (c :: rest) || hasSub pat rest

def strContainsSub (hay pat : String) : Bool := hasSub pat.data hay.data

/-- `s.split("#", 1)` when `"#" in s`: the part before the first `#` and the
part after it. -/
def splitOnceHash : List Char → Option (List Char × List Char)
  | [] => none
  | x :: xs =>
    if x = '#' then some ([], xs)
    else
      match splitOnceHash xs with
      | some (a, b) => some (x :: a, b)
      | none => none

/-- `s.replace("//", "/")`: non-overlapping left-to-right replacement. -/
def collapseSlashes : List Char → List Char
  | c1 :: c2 :: rest =>
    if c1 = '/' ∧ c2 = '/' then '/' :: collapseSlashes rest
    else c1 :: collapseSlashes (c2 :: rest)
  | l => l

/-- Python `s.split("/")` (all occurrences; empty pieces kept; `""` gives
`[""]`). -/
def splitOnSlash : List Char → List (List Char)
  | [] => [[]]
  | c :: rest =>
    if c = '/' then [] :: splitOnSlash rest
    else
      match splitOnSlash rest with
      | s :: ss => (c :: s) :: ss
      | [] => [[c]]

def digitsVal : List Char → Option Nat → Option Nat
  | [], acc => acc
  | c :: r, acc =>
    if 48 ≤ c.toNat ∧ c.toNat ≤ 57 then
      digitsVal r (some ((acc.getD 0) * 10 + (c.toNat - 48)))
    else none

/-- Python `int(s)`: surrounding whitespace stripped, optional sign, decimal
digits (digit-group underscores are not modelled; no pointer segment in the
verified documents uses them). `none` models `ValueError`. -/
def pyParseInt (s : String) : Option Int :=
  match (pyStrip s).data with
  | [] => none
  | c :: rest =>
    if c = '-' then (digitsVal rest none).map (fun n => -(n : Int))
    else if c = '+' then (digitsVal rest none).map (fun n => (n : Int))
    else (digitsVal (c :: rest) none).map (fun n => (n : Int))

/-- Python list indexing semantics: a negative index counts from the end;
out of range is `none` (`IndexError`). -/
def pyNormIdx (i : Int) (len : Nat) : Int := if i < 0 then i + len else i

def pyListGet (items : List Json) (i : Int) : Option Json :=
  let j := pyNormIdx i items.length
  if j < 0 then none else items.get? j.toNat

/-! ## Association-list operations (Python `dict` in insertion order) -/

def alistGet {α : Type} : List (String × α) → String → Option α
  | [], _ => none
  | (k2, v) :: rest, k => if k2 = k then some v else alistGet rest k

/-- `d[k] = v`: replace in place if present (keeping the key's position),
else append — Python dict assignment. -/
def alistSet {α : Type} : List (String × α) → String → α → List (String × α)
  | [], k, v => [(k, v)]
  | (k2, v2) :: rest, k, v =>
    if k2 = k then (k, v) :: rest else (k2, v2) :: alistSet rest k v

/-- `d.pop(k)` / `del d[k]`: drop the (first) binding of `k`. -/
def alistRemove {α : Type} : List (String × α) → String → List (String × α)
  | [], _ => []
  | (k2, v2) :: rest, k =>
    if k2 = k then rest else (k2, v2) :: alistRemove rest k

def objGet (fs : List (String × Json)) (k : String) : Option Json := alistGet fs k

def objSet (fs : List (String × Json)) (k : String) (v : Json) : List (String × Json) :=
  alistSet fs k v

def objRemove (fs : List (String × Json)) (k : String) : List (String × Json) :=
  alistRemove fs k

/-- `a.update(b)`: assign every binding of `b` into `a`, in order. -/
def objUpdate (a b : List (String × Json)) : List (String × Json) :=
  b.foldl (fun acc p => alistSet acc p.1 p.2) a

def listKeys (fs : List (String × Json)) : List String := fs.map Prod.fst

/-- Insertion sort by Python's `<` on strings; `sorted(d.keys())` (dict keys
are unique, so stability is irrelevant). -/
def insertKey (x : String) : List String → List String
  | [] => [x]
  | y :: r => if pyLtStr y x then y :: insertKey x r else x :: y :: r

def sortStrings : List String → List String
  | [] => []
  | x :: r => insertKey x (sortStrings r)


/-! ## Error kinds (Python exceptions) -/

inductive Err where
  /-- `FileNotFoundError` -/
  | notFound
  /-- `TypeError` -/
  | typeError
  /-- `KeyError` -/
  | keyError
  /-- `ValueError` (e.g. `int()` on a non-numeric segment) -/
  | valueError
  /-- `IndexError` (list index out of range, `pop` from empty list, `[-1]` on empty) -/
  | indexError
  /-- `AssertionError` (the `assert isinstance(document, dict)` in `load_fragment`) -/
  | assertError
  /-- `AttributeError` (e.g. `.keys()` on a list) -/
  | attrError
  /-- artefact of the embedding: the fuel bound of the normalizer ran out
  (the Python recursion would still be running/diverging) -/
  | outOfFuel
  deriving DecidableEq

/-- `OpenApiDocument`: a dict (`fields`) tagged with the list of source file
paths (`path`). `OpenApiDocument.__init__` wraps the parsed JSON and stores
`[path]` when constructed with a single string path. -/
structure OpenApiDocument where
  fields : List (String × Json)
  path : List String
  deriving DecidableEq

/-- The process-wide mutable state: the file system (path to parsed JSON;
a missing path is a `FileNotFoundError`) and the two `functools.lru_cache`
memo tables, keyed exactly as in the source: `load_document` by path,
`load_fragment` by `(path, raw_jsonptr)`. -/
structure Store where
  fs : List (String × Json)
  docCache : List (String × OpenApiDocument)
  fragCache : List (String × String × Json)
  deriving DecidableEq

def fragGet : List (String × String × Json) → String → String → Option Json
  | [], _, _ => none
  | (p2, r2, f) :: rest, p, r =>
    if p2 = p ∧ r2 = r then some f else fragGet rest p r

def fragSet (c : List (String × String × Json)) (p r : String) (f : Json) :
    List (String × String × Json) :=
  (p, r, f) :: c

/-- `load_document(path)`: memoized read-and-parse. On a cache miss, the
file is read; a top-level JSON value that is not an object makes
`OpenApiDocument(json.load(f))` fail with `TypeError` (`dict` of a
non-mapping). A missing file yields the empty document `{}` when the path
contains the substring `"/examples/"`, and `FileNotFoundError` otherwise.
Successful results are cached; exceptions are not cached by
`functools.lru_cache`. -/
def load_document (σ : Store) (p : String) : Except Err (OpenApiDocument × Store) :=
  match alistGet σ.docCache p with
  | some d => .ok (d, σ)
  | none =>
    match alistGet σ.fs p with
    | some (Json.obj fs) =>
      let d : OpenApiDocument := ⟨fs, [p]⟩
      .ok (d, { σ with docCache := alistSet σ.docCache p d })
    | some _ => .error .typeError
    | none =>
      if strContainsSub p "/examples/" then
        let d : OpenApiDocument := ⟨[], [p]⟩
        .ok (d, { σ with docCache := alistSet σ.docCache p d })
      else .error .notFound

mutual

/-- Modelled from the spec: `json_merge_patch.merge` is an external
library the spec treats as a black box (merge of base and patch, where
later values override and nested objects merge recursively). This is RFC
7386 JSON merge-patch: a non-object patch replaces the target; an object
patch is applied key by key, `null` deleting the key, other values merged
recursively into the target's value (or into nothing when absent). -/
def mergePatch : Json → Json → Json
  | target, .obj pf =>
    let tf := match target with | .obj t => t | _ => ([] : List (String × Json))
    .obj (mergeFields tf pf)
  | _, patch => patch

def mergeFields : List (String × Json) → List (String × Json) → List (String × Json)
  | tf, [] => tf
  | tf, (k, v) :: rest =>
    match v with
    | .null => mergeFields (alistRemove tf k) rest
    | v => mergeFields (alistSet tf k (mergePatch ((alistGet tf k).getD .null) v)) rest

end

/-- `OpenApiDocument.merge(self, other)`:
`self.update(mergepatch.merge(self, other))`. Only the dict contents change;
the `path` attribute of `self` is left untouched. -/
def mergeDoc (a : OpenApiDocument) (b : OpenApiDocument) : OpenApiDocument :=
  match mergePatch (.obj a.fields) (.obj b.fields) with
  | .obj mf => ⟨objUpdate a.fields mf, a.path⟩
  | _ => a

def mergeAll (σ : Store) (root : OpenApiDocument) :
    List String → Except Err (OpenApiDocument × Store)
  | [] => .ok (root, σ)
  | q :: qs =>
    match load_document σ q with
    | .error e => .error e
    | .ok (d2, σ1) => mergeAll σ1 (mergeDoc root d2) qs

/-- `load(paths)`: `paths.pop(0)` removes the first element from the
caller's list in place, loads it as the base document, then merges each of
the remaining paths onto it. The middle component of the result is the
final value of the caller's `paths` argument after the call (the in-place
`pop` made explicit); `pop` on an empty list raises `IndexError`. -/
def load (σ : Store) (paths : List String) :
    Except Err (OpenApiDocument × List String × Store) :=
  match paths with
  | [] => .error .indexError
  | p :: rest =>
    match load_document σ p with
    | .error e => .error e
    | .ok (root, σ1) =>
      match mergeAll σ1 root rest with
      | .error e => .error e
      | .ok (doc, σ2) => .ok (doc, rest, σ2)

/-! ## Reference resolver -/

/-- `split_ref(jsonptr)`: `#`-leading strings have an empty filepath;
otherwise split once on the first `#` if present; otherwise the whole
string is the filepath. -/
def split_ref (s : String) : String × String :=
  if pyStartsWith s "#" then ("", ⟨s.data.drop 1⟩)
  else
    match splitOnceHash s.data with
    | some (a, b) => (⟨a⟩, ⟨b⟩)
    | none => (s, "")

/-- `str(pathlib.Path(path).parents[0])`: everything before the last `/`,
or `.` when there is no `/`. -/
def parentDir (p : String) : String :=
  if p.data.contains '/' then
    ⟨((p.data.reverse.dropWhile (fun c => c ≠ '/')).drop 1).reverse⟩
  else "."

/-- `str(pathlib.Path(dir) / f)` for a relative `f`; `pathlib` collapses a
single-dot component. -/
def pathJoin (dir f : String) : String :=
  if dir = "." then f else dir ++ "/" ++ f

/-- One resolution step inside the walked document, for the write-back of
the in-place `__fragment` mutation. -/
inductive Step where
  | idx (i : Nat)
  | key (k : String)
  deriving DecidableEq

/-- One iteration of the segment loop in `load_fragment`:
`if isinstance(document, list): document = document[int(segment)]` followed
unconditionally by `assert isinstance(document, dict)` and
`document = document[segment]`. Note that for a list the same segment is
used twice: first as an integer index and then as a dict key on the
element. Returns the new current value and the steps taken. -/
def walkSegment (v : Json) (seg : String) : Except Err (Json × List Step) :=
  match v with
  | .arr items =>
    match pyParseInt seg with
    | none => .error .valueError
    | some i =>
      match pyListGet items i with
      | none => .error .indexError
      | some elem =>
        match elem with
        | .obj fs =>
          match objGet fs seg with
          | some v2 => .ok (v2, [.idx (pyNormIdx i items.length).toNat, .key seg])
          | none => .error .keyError
        | _ => .error .assertError
  | .obj fs =>
    match objGet fs seg with
    | some v2 => .ok (v2, [.key seg])
    | none => .error .keyError
  | _ => .error .assertError

def walkSegs : Json → List String → Except Err (Json × List Step)
  | t, [] => .ok (t, [])
  | t, seg :: rest =>
    match walkSegment t seg with
    | .error e => .error e
    | .ok (t2, st) =>
      match walkSegs t2 rest with
      | .error e => .error e
      | .ok (tf, st2) => .ok (tf, st ++ st2)

/-- The segment list of a non-empty fragment pointer:
`relative_jsonptr.replace("//", "/")[1:].split("/")`. -/
def pointerSegs (rel : String) : List String :=
  (splitOnSlash ((collapseSlashes rel.data).drop 1)).map List.asString

/-- Walk a fragment pointer over a document value (`if relative_jsonptr:`
guards the loop, so an empty pointer returns the whole value). -/
def walkPtr (t : Json) (rel : String) : Except Err (Json × List Step) :=
  if rel = "" then .ok (t, [])
  else walkSegs t (pointerSegs rel)

def getStep (t : Json) : Step → Option Json
  | .idx i =>
    match t with
    | .arr items => items.get? i
    | _ => none
  | .key k =>
    match t with
    | .obj fs => objGet fs k
    | _ => none

def getSteps : Json → List Step → Option Json
  | t, [] => some t
  | t, s :: r =>
    match getStep t s with
    | some t2 => getSteps t2 r
    | none => none

/-- Replace the subtree at a (valid) step path; models the effect, on the
enclosing tree, of mutating the aliased subtree object in place. An
invalid path leaves the tree unchanged (never the case for steps produced
by a successful walk). -/
def setSteps : Json → List Step → Json → Json
  | _, [], v => v
  | .arr items, .idx i :: r, v =>
    match items.get? i with
    | some e => .arr (items.set i (setSteps e r v))
    | none => .arr items
  | .obj fs, .key k :: r, v =>
    match objGet fs k with
    | some e => .obj (objSet fs k (setSteps e r v))
    | none => .obj fs
  | t, _ :: _, _ => t

def asFields (j : Json) (dflt : List (String × Json)) : List (String × Json) :=
  match j with
  | .obj f => f
  | _ => dflt

/-- `load_fragment(path, raw_jsonptr)`, memoized by `(path, raw_jsonptr)`.
On a miss: split the reference, load the target document (relative to the
directory of `path` when a filepath part is present), walk the fragment
pointer, then execute `document["__fragment"] = {"raw": raw_jsonptr}` —
an in-place mutation of the final dict (a `TypeError` if the walked value
is not a dict). Because that dict is aliased inside the cached document,
the embedding writes the mutated subtree back into the document cache at
the walked location. The mutated subtree itself is returned and memoized;
a cache hit returns it without touching any state. -/
def load_fragment (σ : Store) (path raw : String) : Except Err (Json × Store) :=
  match fragGet σ.fragCache path raw with
  | some f => .ok (f, σ)
  | none =>
    let fp := (split_ref raw).1
    let rel := (split_ref raw).2
    let docPath := if fp = "" then path else pathJoin (parentDir path) fp
    match load_document σ docPath with
    | .error e => .error e
    | .ok (d, σ1) =>
      match walkPtr (.obj d.fields) rel with
      | .error e => .error e
      | .ok (target, steps) =>
        match target with
        | .obj tf =>
          let nf : Json := .obj (objSet tf "__fragment" (.obj [("raw", .str raw)]))
          let d2 : OpenApiDocument :=
            ⟨asFields (setSteps (.obj d.fields) steps nf) d.fields, d.path⟩
          .ok (nf, { σ1 with
                      docCache := alistSet σ1.docCache docPath d2,
                      fragCache := fragSet σ1.fragCache path raw nf })
        | _ => .error .typeError


/-! ## Normalizer -/

def pyQuote : String := String.singleton (Char.ofNat 39)

mutual

/-- Python `repr` of a JSON-like value (string escaping not modelled; only
reached through `str()` of a non-string `$ref` value, which no verified
document contains). -/
def pyRepr : Json → String
  | .null => "None"
  | .boolv b => if b then "True" else "False"
  | .num n => toString n
  | .str s => pyQuote ++ s ++ pyQuote
  | .arr l => "[" ++ pyReprItems l ++ "]"
  | .obj fs => "\x7b" ++ pyReprFields fs ++ "\x7d"

def pyReprItems : List Json → String
  | [] => ""
  | [x] => pyRepr x
  | x :: r => pyRepr x ++ ", " ++ pyReprItems r

def pyReprFields : List (String × Json) → String
  | [] => ""
  | [(k, v)] => pyQuote ++ k ++ pyQuote ++ ": " ++ pyRepr v
  | (k, v) :: r => pyQuote ++ k ++ pyQuote ++ ": " ++ pyRepr v ++ ", " ++ pyReprFields r

end

/-- Python `str()`: identity on strings, `repr`-style otherwise. -/
def pyStr : Json → String
  | .str s => s
  | v => pyRepr v

mutual

/-- The inner `iter_normalize(data, source_path)` of `normalize`. Scalars
pass through (strings handed directly to `iter_normalize` — i.e. array
elements — are NOT trimmed; only strings that are dict values are). A
`None` makes `"$ref" in data` raise `TypeError`; a list argument raises
`TypeError` on `data.pop("$ref")` when it contains the string `"$ref"`,
else `AttributeError` on `data.keys()`. For a dict: if a `$ref` key is
present it is popped, resolved via
`load_fragment(doc.path[-1], str(<popped value>))` (an `IndexError` when
the document's path list is empty), and the remaining local keys are
overlaid onto the dereferenced dict (`dereffed.update(data)`); then the
keys are visited in sorted order, recursing into dict and list values,
trimming string values, and copying everything else. The fuel argument is
an embedding artefact: every recursive call decreases it, and Python's
(potentially divergent) recursion corresponds to an arbitrarily large
fuel. -/
def iter_normalize : Nat → Store → List String → Json → List String →
    Except Err (Json × Store)
  | 0, _, _, _, _ => .error .outOfFuel
  | _ + 1, σ, _, .str s, _ => .ok (.str s, σ)
  | _ + 1, σ, _, .num n, _ => .ok (.num n, σ)
  | _ + 1, σ, _, .boolv b, _ => .ok (.boolv b, σ)
  | _ + 1, _, _, .null, _ => .error .typeError
  | _ + 1, _, _, .arr items, _ =>
    .error (if items.contains (Json.str "$ref") then .typeError else .attrError)
  | fuel + 1, σ, docPaths, .obj fields, sp =>
    match objGet fields "$ref" with
    | some refv =>
      match docPaths.getLast? with
      | none => .error .indexError
      | some ctx =>
        match load_fragment σ ctx (pyStr refv) with
        | .error e => .error e
        | .ok (frag, σa) =>
          match frag with
          | .obj ff =>
            let fields2 := objUpdate ff (objRemove fields "$ref")
            match normFields fuel σa docPaths fields2
                (sortStrings (listKeys fields2)) sp [] with
            | .error e => .error e
            | .ok (res, σ2) => .ok (.obj res, σ2)
          | _ => .error .attrError
    | none =>
      match normFields fuel σ docPaths fields (sortStrings (listKeys fields)) sp [] with
      | .error e => .error e
      | .ok (res, σ2) => .ok (.obj res, σ2)

/-- The `for key in list(sorted(data.keys()))` loop of `iter_normalize`,
building the result dict in sorted-key order. -/
def normFields : Nat → Store → List String → List (String × Json) → List String →
    List String → List (String × Json) → Except Err (List (String × Json) × Store)
  | 0, _, _, _, _, _, _ => .error .outOfFuel
  | _ + 1, σ, _, _, [], _, acc => .ok (acc, σ)
  | fuel + 1, σ, docPaths, fields2, key :: keys, sp, acc =>
    match objGet fields2 key with
    | none => .error .keyError
    | some value =>
      match value with
      | .obj vf =>
        match iter_normalize fuel σ docPaths (.obj vf) (sp ++ [key]) with
        | .error e => .error e
        | .ok (v2, σ3) => normFields fuel σ3 docPaths fields2 keys sp (objSet acc key v2)
      | .arr its =>
        match normItems fuel σ docPaths its (sp ++ [key]) 0 [] with
        | .error e => .error e
        | .ok (vs, σ3) =>
          normFields fuel σ3 docPaths fields2 keys sp (objSet acc key (.arr vs))
      | .str s => normFields fuel σ docPaths fields2 keys sp (objSet acc key (.str (pyStrip s)))
      | v => normFields fuel σ docPaths fields2 keys sp (objSet acc key v)

/-- The list comprehension over `enumerate(value)` in `iter_normalize`. -/
def normItems : Nat → Store → List String → List Json → List String → Nat →
    List Json → Except Err (List Json × Store)
  | 0, _, _, _, _, _, _ => .error .outOfFuel
  | _ + 1, σ, _, [], _, _, acc => .ok (acc, σ)
  | fuel + 1, σ, docPaths, item :: its, sp, idx, acc =>
    match iter_normalize fuel σ docPaths item (sp ++ [toString idx]) with
    | .error e => .error e
    | .ok (v, σ2) => normItems fuel σ2 docPaths its sp (idx + 1) (acc ++ [v])

end

/-- `normalize(doc, source_path)`: runs `iter_normalize(doc, [])` (note the
`source_path` parameter of `normalize` is ignored by the source — the
inner call always starts from `[]`). -/
def Tsp.normalize (fuel : Nat) (σ : Store) (doc : OpenApiDocument)
    (_source_path : List String) : Except Err (Json × Store) :=
  iter_normalize fuel σ doc.path (.obj doc.fields) []

/-! ## Diff filter -/

/-- A diff operation, a Python dict with string values; `diff.get(k, "")`
returns `""` for a missing key. -/
def diffGet (d : List (String × String)) (k : String) : String :=
  (alistGet d k).getD ""

/-- `filters["ignore-added-paths"]["func"]`: suppress when the operation is
an `add`, the path starts with `/paths/`, and `path.split("/")` has exactly
3 pieces. -/
def ignore_added_paths (diff : List (String × String)) : Bool :=
  diffGet diff "op" == "add" && pyStartsWith (diffGet diff "path") "/paths/" &&
    (splitOnSlash (diffGet diff "path").data).length == 3

/-! ## Canonical trees (for the idempotence property) -/

/-- Keys in strictly increasing Python string order (so also unique, as
dict keys are). -/
def keysStrictSorted : List String → Bool
  | [] => true
  | [_] => true
  | a :: b :: r => pyLtStr a b && keysStrictSorted (b :: r)

mutual

/-- The claim's notion of an already-canonical tree: every mapping's keys
sorted, every string leaf trimmed, no `$ref` key at any level. -/
def canonicalB : Json → Bool
  | .null => true
  | .boolv _ => true
  | .num _ => true
  | .str s => pyStrip s == s
  | .arr items => canonicalList items
  | .obj fs =>
    keysStrictSorted (listKeys fs) && (objGet fs "$ref").isNone && canonicalFields fs

def canonicalList : List Json → Bool
  | [] => true
  | x :: r => canonicalB x && canonicalList r

def canonicalFields : List (String × Json) → Bool
  | [] => true
  | p :: r => canonicalB p.2 && canonicalFields r

end

/-- Values that `iter_normalize` can receive as an array element without
raising: strings, numbers, booleans and dicts (a `None` element raises
`TypeError`, a nested list `AttributeError`). -/
def elemOkB : Json → Bool
  | .null => false
  | .arr _ => false
  | _ => true

mutual

/-- No array anywhere in the tree contains a `null` or a nested array. -/
def arraySafeB : Json → Bool
  | .arr items => arrItemsOk items
  | .obj fs => arrFieldsOk fs
  | _ => true

def arrItemsOk : List Json → Bool
  | [] => true
  | x :: r => elemOkB x && arraySafeB x && arrItemsOk r

def arrFieldsOk : List (String × Json) → Bool
  | [] => true
  | p :: r => arraySafeB p.2 && arrFieldsOk r

end

mutual

/-- Fuel sufficient for `iter_normalize` on a `$ref`-free tree. -/
def needJ : Json → Nat
  | .obj fs => 1 + needF fs
  | _ => 1

def needF : List (String × Json) → Nat
  | [] => 1
  | p :: r => 1 + max (needV p.2) (needF r)

def needV : Json → Nat
  | .obj fs => 1 + needF fs
  | .arr its => needI its
  | _ => 0

def needI : List Json → Nat
  | [] => 1
  | x :: r => 1 + max (needJ x) (needI r)

end


/-! ## Concrete runs used by the claims -/

def exceptIsOk {ε α : Type} : Except ε α → Bool
  | .ok _ => true
  | .error _ => false

/-- The single-file document of the reference-override property:
`{"a": {"$ref": "#/b", "x": 2}, "b": {"x": 1, "y": 3}}`. -/
def c1store : Store :=
  ⟨[("spec.json",
      .obj [("a", .obj [("$ref", .str "#/b"), ("x", .num 2)]),
            ("b", .obj [("x", .num 1), ("y", .num 3)])])], [], []⟩

/-- The normalized value at key `"a"` after loading and normalizing
`spec.json` from `c1store`. -/
def c1normA : Option Json :=
  match load c1store ["spec.json"] with
  | .ok (d, _, σ1) =>
    match Tsp.normalize 32 σ1 d [] with
    | .ok (.obj fs, _) => objGet fs "a"
    | _ => none
  | _ => none

/-- Claim C1 (counterexample): on
`{"a": {"$ref": "#/b", "x": 2}, "b": {"x": 1, "y": 3}}` the normalized
value at `"a"` is NOT exactly `{"x": 2, "y": 3}` — `load_fragment` tags the
dereferenced subtree with the reserved `__fragment` provenance key before
the local overrides are applied, and normalization keeps that key. -/
theorem c1_counterexample :
    c1normA ≠ some (.obj [("x", .num 2), ("y", .num 3)]) := by decide

/-- Claim C1 (amended): the `$ref` key is removed and the remaining local
keys override the dereferenced subtree (`x` is 2, not 1; `y` survives as
3), but the result additionally carries the provenance entry
`"__fragment": {"raw": "#/b"}`; with keys in sorted order the normalized
value at `"a"` is exactly
`{"__fragment": {"raw": "#/b"}, "x": 2, "y": 3}`. -/
theorem c1_amended :
    c1normA =
      some (.obj [("__fragment", .obj [("raw", .str "#/b")]),
                  ("x", .num 2), ("y", .num 3)]) := by decide

/-- The document `{"items": [{"x": 1}]}` used to exercise a sequence
segment in a fragment pointer. -/
def c2store : Store :=
  ⟨[("f.json", .obj [("items", .arr [.obj [("x", .num 1)]])])], [], []⟩

/-- Claim C2 (code bug): resolving `#/items/0` against
`{"items": [{"x": 1}]}` should consume the segment `0` with the single
integer-index operation and yield `{"x": 1}`; instead the loop in
`load_fragment` has no `else` between the list branch and the mapping
branch, so after indexing the list it also performs the dict lookup
`document["0"]` on the element, raising `KeyError`. -/
theorem c2_theorem :
    load_fragment c2store "f.json" "#/items/0" = .error .keyError := by decide

/-- The document `{"a": {"b": {"v": 1}}, "a/b": {"w": 2}}`, which gives
different results for a `//` read as an escaped literal `/` in one segment
(key `"a/b"`) versus a collapsed ordinary separator (keys `"a"`, `"b"`). -/
def c4store : Store :=
  ⟨[("f.json",
      .obj [("a", .obj [("b", .obj [("v", .num 1)])]),
            ("a/b", .obj [("w", .num 2)])])], [], []⟩

def c4tree : Json :=
  .obj [("a", .obj [("b", .obj [("v", .num 1)])]),
        ("a/b", .obj [("w", .num 2)])]

def c4frag : Option Json :=
  match load_fragment c4store "f.json" "#/a//b" with
  | .ok (f, _) => some f
  | _ => none

/-- Claim C4 (counterexample): resolving `#/a//b` against
`{"a": {"b": {"v": 1}}, "a/b": {"w": 2}}` does NOT treat `a//b` as the one
segment `a/b`: the result is the subtree at `a` then `b` (it has `v` and
lacks `w`), not the subtree at key `"a/b"`. -/
theorem c4_counterexample :
    c4frag = some (.obj [("v", .num 1), ("__fragment", .obj [("raw", .str "#/a//b")])]) ∧
    c4frag ≠ some (.obj [("w", .num 2), ("__fragment", .obj [("raw", .str "#/a//b")])]) := by
  decide

/-- Claim C4 (amended): `load_fragment` collapses a doubled `//` to a
single `/` before stripping the leading `/` and splitting, so `//` acts as
one ordinary separator: `/a//b` produces exactly the two segments `a`, `b`
and walks like `/a/b`; a key containing a literal `/` is not addressed. -/
theorem c4_amended :
    pointerSegs "/a//b" = ["a", "b"] ∧
    walkPtr c4tree "/a//b" = walkPtr c4tree "/a/b" ∧
    c4frag = some (.obj [("v", .num 1), ("__fragment", .obj [("raw", .str "#/a//b")])]) := by
  decide

/-- Claim C5: on a path that is not cached and whose file does not exist,
`load_document` returns (and caches) the empty document exactly when the
path contains the `/examples/` segment marker, and fails with `NotFound`
for every other missing path. -/
theorem c5_load_document_missing (σ : Store) (p : String)
    (hdc : alistGet σ.docCache p = none) (hfs : alistGet σ.fs p = none) :
    load_document σ p =
      (if strContainsSub p "/examples/" then
        .ok (⟨[], [p]⟩, { σ with docCache := alistSet σ.docCache p ⟨[], [p]⟩ })
      else .error .notFound) := by
  unfold load_document
  rw [hdc, hfs]

/-- Claim C5 witness: a concrete missing example path resolves to the
empty document, a concrete missing non-example path to `NotFound`. -/
theorem c5_witness :
    load_document ⟨[], [], []⟩ "specs/examples/x.json" =
      .ok (⟨[], ["specs/examples/x.json"]⟩,
        ⟨[], [("specs/examples/x.json", ⟨[], ["specs/examples/x.json"]⟩)], []⟩) ∧
    load_document ⟨[], [], []⟩ "specs/x.json" = .error .notFound := by
  constructor
  · rw [c5_load_document_missing ⟨[], [], []⟩ "specs/examples/x.json" rfl rfl]
    decide
  · rw [c5_load_document_missing ⟨[], [], []⟩ "specs/x.json" rfl rfl]
    decide

/-- The characterization the claim gives for the `ignore-added-paths`
filter. -/
def c7prop (d : List (String × String)) : Prop :=
  diffGet d "op" = "add" ∧ pyStartsWith (diffGet d "path") "/paths/" = true ∧
    (splitOnSlash (diffGet d "path").data).length = 3

/-- Claim C7: `ignore-added-paths` suppresses a diff operation exactly when
it is an `add` whose path starts with `/paths/` and splits on `/` into
exactly 3 pieces; in particular it suppresses
`{"op": "add", "path": "/paths/newRoute"}` and does not suppress
`{"op": "add", "path": "/paths/newRoute/get"}`. -/
theorem c7_ignore_added_paths :
    (∀ d, ignore_added_paths d = true ↔ c7prop d) ∧
    ignore_added_paths [("op", "add"), ("path", "/paths/newRoute")] = true ∧
    ignore_added_paths [("op", "add"), ("path", "/paths/newRoute/get")] = false := by
  refine ⟨?_, by decide, by decide⟩
  intro d
  unfold ignore_added_paths c7prop
  simp [Bool.and_eq_true, and_assoc]

/-- Claim C7 witness: the characterization applied at a concrete
operation. -/
theorem c7_witness :
    ignore_added_paths [("op", "add"), ("path", "/paths/p1")] = true ↔
      c7prop [("op", "add"), ("path", "/paths/p1")] :=
  c7_ignore_added_paths.1 [("op", "add"), ("path", "/paths/p1")]

/-! ## Claim C3: split_ref vs the spec's three rules -/

theorem splitOnceHash_of_contains (l : List Char) (h : l.contains '#' = true) :
    splitOnceHash l =
      some (l.takeWhile (fun c => c ≠ '#'), (l.dropWhile (fun c => c ≠ '#')).drop 1) := by
  induction l with
  | nil => simp at h
  | cons x xs ih =>
    by_cases hx : x = '#'
    · subst hx
      simp [splitOnceHash, List.takeWhile_cons, List.dropWhile_cons]
    · have hxs : xs.contains '#' = true := by
        simp [List.contains_cons] at h
        rcases h with h | h
        · exact absurd h.symm hx
        · simpa using h
      simp [splitOnceHash, hx, ih hxs, List.takeWhile_cons, List.dropWhile_cons]

theorem splitOnceHash_of_not_contains (l : List Char) (h : l.contains '#' = false) :
    splitOnceHash l = none := by
  induction l with
  | nil => rfl
  | cons x xs ih =>
    simp [List.contains_cons] at h
    have hx : ¬ x = '#' := fun he => h.1 he.symm
    simp [splitOnceHash, hx, ih (by simpa using h.2)]

/-- The three prioritized parsing rules of the spec, written independently
of the implementation: a leading `#` means no filepath and the rest is the
fragment; otherwise, when the string contains `#`, the filepath is the part
before the first `#` and the fragment the part after it; otherwise the
whole string is the filepath and the fragment is empty. -/
def split_ref_rules (s : String) : String × String :=
  if pyStartsWith s "#" then ("", ⟨s.data.drop 1⟩)
  else if s.data.contains '#' then
    (⟨s.data.takeWhile (fun c => c ≠ '#')⟩,
     ⟨(s.data.dropWhile (fun c => c ≠ '#')).drop 1⟩)
  else (s, "")

/-- Claim C3: for every input string `split_ref` follows the three parsing
rules in priority order, and it distinguishes the three reference shapes
`#/a/b`, `other.json#/a/b` and `other.json`. -/
theorem c3_split_ref :
    (∀ s : String, split_ref s = split_ref_rules s) ∧
    split_ref "#/a/b" = ("", "/a/b") ∧
    split_ref "other.json#/a/b" = ("other.json", "/a/b") ∧
    split_ref "other.json" = ("other.json", "") := by
  refine ⟨?_, by decide, by decide, by decide⟩
  intro s
  unfold split_ref split_ref_rules
  by_cases h1 : pyStartsWith s "#" = true
  · simp [h1]
  · rw [Bool.not_eq_true] at h1
    cases hc : s.data.contains '#' with
    | true => simp [h1, hc, splitOnceHash_of_contains s.data hc]
    | false => simp [h1, hc, splitOnceHash_of_not_contains s.data hc]

/-- Claim C3 witness: the rule equivalence applied at a concrete mixed
reference. -/
theorem c3_witness : split_ref "dir/o.json#/x/y" = split_ref_rules "dir/o.json#/x/y" :=
  c3_split_ref.1 "dir/o.json#/x/y"

/-! ## Claims C6 and C10: load -/

theorem mergeDoc_path (a b : OpenApiDocument) : (mergeDoc a b).path = a.path := by
  unfold mergeDoc
  cases mergePatch (.obj a.fields) (.obj b.fields) <;> rfl

theorem mergeAll_path (qs : List String) :
    ∀ (σ : Store) (root d : OpenApiDocument) (σ2 : Store),
      mergeAll σ root qs = .ok (d, σ2) → d.path = root.path := by
  induction qs with
  | nil =>
    intro σ root d σ2 h
    unfold mergeAll at h
    simp only [Except.ok.injEq, Prod.mk.injEq] at h
    rw [← h.1]
  | cons q qs ih =>
    intro σ root d σ2 h
    unfold mergeAll at h
    cases hld : load_document σ q with
    | error e => rw [hld] at h; simp at h
    | ok pr =>
      obtain ⟨d2, σ1⟩ := pr
      rw [hld] at h
      exact (ih _ _ _ _ h).trans (mergeDoc_path root d2)

/-- A fresh (uncached) successful `load_document` tags the document with
the singleton list of the requested path. -/
theorem load_document_fresh_path (σ : Store) (p : String) (d : OpenApiDocument)
    (σ2 : Store) (hdc : alistGet σ.docCache p = none)
    (h : load_document σ p = .ok (d, σ2)) : d.path = [p] := by
  unfold load_document at h
  rw [hdc] at h
  cases hfs : alistGet σ.fs p with
  | none =>
    rw [hfs] at h
    by_cases hex : strContainsSub p "/examples/" = true
    · simp only [hex, if_true, Except.ok.injEq, Prod.mk.injEq] at h
      rw [← h.1]
    · simp [hex] at h
  | some j =>
    rw [hfs] at h
    cases j with
    | obj fs =>
      simp only [Except.ok.injEq, Prod.mk.injEq] at h
      rw [← h.1]
    | null => simp at h
    | boolv b => simp at h
    | num n => simp at h
    | str s => simp at h
    | arr l => simp at h

/-- Claim C6 (amended): for a fresh first path, `load` returns the first
path's document as base with every later document merge-overlaid onto it,
and its source-path tag is the singleton list holding only the FIRST input
path — the tag is never extended by merging. -/
theorem c6_amended (σ : Store) (p : String) (rest rest2 : List String)
    (d : OpenApiDocument) (σ2 : Store) (hdc : alistGet σ.docCache p = none)
    (h : load σ (p :: rest) = .ok (d, rest2, σ2)) : d.path = [p] := by
  cases hld : load_document σ p with
  | error e => simp [load, hld] at h
  | ok pr =>
    obtain ⟨root, σ1⟩ := pr
    cases hma : mergeAll σ1 root rest with
    | error e => simp [load, hld, hma] at h
    | ok pr2 =>
      obtain ⟨dd, σ3⟩ := pr2
      simp only [load, hld, hma, Except.ok.injEq, Prod.mk.injEq] at h
      rw [← h.1]
      exact (mergeAll_path rest σ1 root dd σ3 hma).trans
        (load_document_fresh_path σ p root σ1 hdc hld)

def c6store : Store :=
  ⟨[("a.json", .obj [("k", .num 1)]), ("b.json", .obj [("m", .num 2)])], [], []⟩

def c6run : Except Err (OpenApiDocument × List String × Store) :=
  load c6store ["a.json", "b.json"]

def c6doc : OpenApiDocument :=
  match c6run with
  | .ok (d, _, _) => d
  | _ => ⟨[], []⟩

def c6rest : List String :=
  match c6run with
  | .ok (_, r, _) => r
  | _ => []

def c6store2 : Store :=
  match c6run with
  | .ok (_, _, s) => s
  | _ => c6store

/-- Claim C6 (counterexample): loading the two files `a.json`, `b.json`
yields a document whose source-path tag is `["a.json"]` — only the first
path — not the full ordered list `["a.json", "b.json"]`. -/
theorem c6_counterexample :
    c6doc.path = ["a.json"] ∧ c6doc.path ≠ ["a.json", "b.json"] := by decide

/-- Claim C6 witness: the amended statement applied to the concrete
two-file load. -/
theorem c6_witness : c6doc.path = ["a.json"] :=
  c6_amended c6store "a.json" ["b.json"] c6rest c6doc c6store2 rfl rfl

/-- Claim C10: `load` pops the first element of the caller's list in
place: after any successful call on a non-empty list, the caller's list is
exactly the tail of the original list — in particular it is no longer the
original list. -/
theorem c10_load_pops (σ σ2 : Store) (p : String) (rest rest2 : List String)
    (d : OpenApiDocument) (h : load σ (p :: rest) = .ok (d, rest2, σ2)) :
    rest2 = rest ∧ rest2 ≠ p :: rest := by
  cases hld : load_document σ p with
  | error e => simp [load, hld] at h
  | ok pr =>
    obtain ⟨root, σ1⟩ := pr
    cases hma : mergeAll σ1 root rest with
    | error e => simp [load, hld, hma] at h
    | ok pr2 =>
      obtain ⟨dd, σ3⟩ := pr2
      simp only [load, hld, hma, Except.ok.injEq, Prod.mk.injEq] at h
      obtain ⟨-, h2, -⟩ := h
      subst h2
      refine ⟨rfl, fun he => ?_⟩
      have := congrArg List.length he
      simp at this

def c10store : Store :=
  ⟨[("a.json", .obj [("k", .num 1)]), ("b.json", .obj [("m", .num 2)])], [], []⟩

def c10run : Except Err (OpenApiDocument × List String × Store) :=
  load c10store ["a.json", "b.json"]

def c10doc : OpenApiDocument :=
  match c10run with
  | .ok (d, _, _) => d
  | _ => ⟨[], []⟩

def c10rest : List String :=
  match c10run with
  | .ok (_, r, _) => r
  | _ => []

def c10store2 : Store :=
  match c10run with
  | .ok (_, _, s) => s
  | _ => c10store

/-- Claim C10 witness: the concrete two-element call leaves the caller's
list as `["b.json"]`, which differs from the original. -/
theorem c10_witness : c10rest = ["b.json"] ∧ c10rest ≠ ["a.json", "b.json"] :=
  c10_load_pops c10store c10store2 "a.json" ["b.json"] c10rest c10doc rfl

/-! ## Claim C9: load_fragment mutates the cached document -/

theorem alistGet_set_self {α : Type} (l : List (String × α)) (k : String) (v : α) :
    alistGet (alistSet l k v) k = some v := by
  induction l with
  | nil => simp [alistSet, alistGet]
  | cons p rest ih =>
    obtain ⟨k2, v2⟩ := p
    by_cases hk : k2 = k
    · simp [alistSet, alistGet, hk]
    · simp [alistSet, alistGet, hk, ih]

theorem getSteps_append (a : List Step) :
    ∀ (t : Json) (b : List Step),
      getSteps t (a ++ b) = (getSteps t a).bind (fun u => getSteps u b) := by
  induction a with
  | nil => intro t b; rfl
  | cons s r ih =>
    intro t b
    simp only [List.cons_append, getSteps]
    cases getStep t s with
    | none => rfl
    | some t2 => exact ih t2 b

theorem walkSegment_getSteps (v : Json) (seg : String) (t2 : Json) (st : List Step)
    (h : walkSegment v seg = .ok (t2, st)) : getSteps v st = some t2 := by
  cases v with
  | arr items =>
    simp only [walkSegment] at h
    cases hpi : pyParseInt seg with
    | none => simp [hpi] at h
    | some i =>
      simp only [hpi] at h
      cases hpl : pyListGet items i with
      | none => simp [hpl] at h
      | some elem =>
        simp only [hpl] at h
        cases elem with
        | obj fs =>
          cases hog : objGet fs seg with
          | none => simp [hog] at h
          | some v2 =>
            simp only [hog, Except.ok.injEq, Prod.mk.injEq] at h
            obtain ⟨h1, h2⟩ := h
            subst h1
            rw [← h2]
            have hget : items.get? (pyNormIdx i items.length).toNat = some (.obj fs) := by
              unfold pyListGet at hpl
              by_cases hneg : pyNormIdx i items.length < 0
              · simp [hneg] at hpl
              · simpa [hneg] using hpl
            simp [getSteps, getStep, ← List.get?_eq_getElem?, hget, hog]
        | null => simp at h
        | boolv b => simp at h
        | num n => simp at h
        | str s => simp at h
        | arr l => simp at h
  | obj fs =>
    simp only [walkSegment] at h
    cases hog : objGet fs seg with
    | none => simp [hog] at h
    | some v2 =>
      simp only [hog, Except.ok.injEq, Prod.mk.injEq] at h
      obtain ⟨h1, h2⟩ := h
      subst h1
      rw [← h2]
      simp [getSteps, getStep, hog]
  | null => simp [walkSegment] at h
  | boolv b => simp [walkSegment] at h
  | num n => simp [walkSegment] at h
  | str s => simp [walkSegment] at h

theorem walkSegs_getSteps (segs : List String) :
    ∀ (t tf : Json) (st : List Step),
      walkSegs t segs = .ok (tf, st) → getSteps t st = some tf := by
  induction segs with
  | nil =>
    intro t tf st h
    simp only [walkSegs, Except.ok.injEq, Prod.mk.injEq] at h
    obtain ⟨h1, h2⟩ := h
    rw [← h1, ← h2]
    rfl
  | cons seg rest ih =>
    intro t tf st h
    simp only [walkSegs] at h
    cases hws : walkSegment t seg with
    | error e => simp [hws] at h
    | ok pr =>
      obtain ⟨t2, st1⟩ := pr
      simp only [hws] at h
      cases hwr : walkSegs t2 rest with
      | error e => simp [hwr] at h
      | ok pr2 =>
        obtain ⟨tf2, st2⟩ := pr2
        simp only [hwr, Except.ok.injEq, Prod.mk.injEq] at h
        obtain ⟨h1, h2⟩ := h
        subst h1
        rw [← h2, getSteps_append, walkSegment_getSteps t seg t2 st1 hws]
        exact ih t2 tf2 st2 hwr

theorem walkPtr_getSteps (t : Json) (rel : String) (tf : Json) (st : List Step)
    (h : walkPtr t rel = .ok (tf, st)) : getSteps t st = some tf := by
  unfold walkPtr at h
  by_cases hrel : rel = ""
  · simp only [hrel, if_true] at h
    simp only [Except.ok.injEq, Prod.mk.injEq] at h
    obtain ⟨h1, h2⟩ := h
    rw [← h1, ← h2]
    rfl
  · rw [if_neg hrel] at h
    exact walkSegs_getSteps (pointerSegs rel) t tf st h

theorem getSteps_setSteps (steps : List Step) :
    ∀ (t old v : Json), getSteps t steps = some old →
      getSteps (setSteps t steps v) steps = some v := by
  induction steps with
  | nil => intro t old v _; cases t <;> rfl
  | cons s r ih =>
    intro t old v h
    simp only [getSteps] at h
    cases hgs : getStep t s with
    | none => simp [hgs] at h
    | some e =>
      simp only [hgs] at h
      cases s with
      | idx i =>
        cases t with
        | arr items =>
          simp only [getStep] at hgs
          have hlt : i < items.length := by
            by_contra hge
            rw [List.get?_eq_none.2 (by omega)] at hgs
            simp at hgs
          simp only [setSteps, hgs, getSteps, getStep, List.get?_eq_getElem?,
            List.getElem?_set_eq_of_lt _ hlt]
          exact ih e old v h
        | null => simp [getStep] at hgs
        | boolv b => simp [getStep] at hgs
        | num n => simp [getStep] at hgs
        | str s2 => simp [getStep] at hgs
        | obj fs => simp [getStep] at hgs
      | key k =>
        cases t with
        | obj fs =>
          simp only [getStep, objGet] at hgs
          simp only [setSteps, objGet, objSet, hgs, getSteps, getStep, alistGet_set_self]
          exact ih e old v h
        | null => simp [getStep] at hgs
        | boolv b => simp [getStep] at hgs
        | num n => simp [getStep] at hgs
        | str s2 => simp [getStep] at hgs
        | arr l => simp [getStep] at hgs

theorem setSteps_obj_shape (f : List (String × Json)) (steps : List Step)
    (nf : List (String × Json)) :
    Json.obj (asFields (setSteps (.obj f) steps (.obj nf)) f) =
      setSteps (.obj f) steps (.obj nf) := by
  cases steps with
  | nil => rfl
  | cons s r =>
    cases s with
    | idx i => simp [setSteps, asFields]
    | key k => cases hog : objGet f k <;> simp [setSteps, asFields, hog]

/-- Claim C9: a successful fresh `load_fragment` call returns exactly the
subtree now stored inside the memoized document at the walked location,
with the reserved `__fragment` key written into it; the mutation is
persistent: on the resulting store, `load_document` for the resolved file
still returns the mutated document, and `load_fragment` for the same
`(path, reference)` pair returns the same tagged fragment unchanged, so
the `__fragment` entry is visible to every later reader. -/
theorem c9_load_fragment_mutates (σ σ2 : Store) (path raw : String) (frag : Json)
    (hmiss : fragGet σ.fragCache path raw = none)
    (h : load_fragment σ path raw = .ok (frag, σ2)) :
    ∃ (dp : String) (steps : List Step) (d2 : OpenApiDocument) (ff : List (String × Json)),
      alistGet σ2.docCache dp = some d2 ∧
      getSteps (.obj d2.fields) steps = some frag ∧
      frag = .obj ff ∧
      objGet ff "__fragment" = some (.obj [("raw", .str raw)]) ∧
      fragGet σ2.fragCache path raw = some frag ∧
      load_document σ2 dp = .ok (d2, σ2) ∧
      load_fragment σ2 path raw = .ok (frag, σ2) := by
  simp only [load_fragment, hmiss] at h
  set dp := (if (split_ref raw).1 = "" then path
             else pathJoin (parentDir path) (split_ref raw).1) with hdp
  cases hld : load_document σ dp with
  | error e => simp [hld] at h
  | ok pr =>
    obtain ⟨d, σ1⟩ := pr
    simp only [hld] at h
    cases hwp : walkPtr (.obj d.fields) (split_ref raw).2 with
    | error e => simp [hwp] at h
    | ok pr2 =>
      obtain ⟨target, steps⟩ := pr2
      simp only [hwp] at h
      cases target with
      | obj tf =>
        simp only [Except.ok.injEq, Prod.mk.injEq] at h
        obtain ⟨hfrag, hσ⟩ := h
        refine ⟨dp, steps,
          ⟨asFields (setSteps (.obj d.fields) steps
              (.obj (objSet tf "__fragment" (.obj [("raw", .str raw)])))) d.fields, d.path⟩,
          objSet tf "__fragment" (.obj [("raw", .str raw)]), ?_, ?_, ?_, ?_, ?_, ?_, ?_⟩
        · rw [← hσ]
          exact alistGet_set_self _ _ _
        · rw [← hfrag, setSteps_obj_shape]
          exact getSteps_setSteps steps (.obj d.fields) (.obj tf) _
            (walkPtr_getSteps (.obj d.fields) (split_ref raw).2 (.obj tf) steps hwp)
        · exact hfrag.symm
        · exact alistGet_set_self _ _ _
        · rw [← hσ, ← hfrag]
          simp [fragGet, fragSet]
        · rw [← hσ]
          simp only [load_document]
          rw [show alistGet ({ σ1 with
              docCache := alistSet σ1.docCache dp
                ⟨asFields (setSteps (.obj d.fields) steps
                    (.obj (objSet tf "__fragment" (.obj [("raw", .str raw)])))) d.fields,
                  d.path⟩,
              fragCache := fragSet σ1.fragCache path raw
                (.obj (objSet tf "__fragment" (.obj [("raw", .str raw)]))) } : Store).docCache dp
            = some ⟨asFields (setSteps (.obj d.fields) steps
                (.obj (objSet tf "__fragment" (.obj [("raw", .str raw)])))) d.fields, d.path⟩
            from alistGet_set_self _ _ _]
        · rw [← hσ, ← hfrag]
          simp only [load_fragment]
          rw [show fragGet (fragSet σ1.fragCache path raw
              (.obj (objSet tf "__fragment" (.obj [("raw", .str raw)])))) path raw
            = some (.obj (objSet tf "__fragment" (.obj [("raw", .str raw)])))
            from by simp [fragGet, fragSet]]
      | null => simp at h
      | boolv b => simp at h
      | num n => simp at h
      | str s => simp at h
      | arr l => simp at h

def c9store : Store := ⟨[("w.json", .obj [("sec", .obj [("k", .str "v")])])], [], []⟩

def c9run : Except Err (Json × Store) := load_fragment c9store "w.json" "#/sec"

def c9frag : Json :=
  match c9run with
  | .ok (f, _) => f
  | _ => .null

def c9store2 : Store :=
  match c9run with
  | .ok (_, s) => s
  | _ => c9store

/-- Claim C9 witness: the mutation statement applied to a concrete fresh
resolution of `#/sec` inside `w.json`. -/
theorem c9_witness :
    ∃ (dp : String) (steps : List Step) (d2 : OpenApiDocument) (ff : List (String × Json)),
      alistGet c9store2.docCache dp = some d2 ∧
      getSteps (.obj d2.fields) steps = some c9frag ∧
      c9frag = .obj ff ∧
      objGet ff "__fragment" = some (.obj [("raw", .str "#/sec")]) ∧
      fragGet c9store2.fragCache "w.json" "#/sec" = some c9frag ∧
      load_document c9store2 dp = .ok (d2, c9store2) ∧
      load_fragment c9store2 "w.json" "#/sec" = .ok (c9frag, c9store2) :=
  c9_load_fragment_mutates c9store c9store2 "w.json" "#/sec" c9frag rfl rfl

/-! ## Claim C8: idempotence on canonical trees -/

theorem lexLtChars_irrefl (l : List Char) : lexLtChars l l = false := by
  induction l with
  | nil => rfl
  | cons c r ih => simp [lexLtChars, ih]

theorem lexLtChars_trans (a : List Char) :
    ∀ b c, lexLtChars a b = true → lexLtChars b c = true → lexLtChars a c = true := by
  induction a with
  | nil =>
    intro b c hab hbc
    cases b with
    | nil => exact hbc
    | cons y ys =>
      cases c with
      | nil => simp [lexLtChars] at hbc
      | cons z zs => rfl
  | cons x xs ih =>
    intro b c hab hbc
    cases b with
    | nil => simp [lexLtChars] at hab
    | cons y ys =>
      cases c with
      | nil => simp [lexLtChars] at hbc
      | cons z zs =>
        simp only [lexLtChars] at hab hbc ⊢
        by_cases hxy : x.toNat < y.toNat
        · by_cases hyz : y.toNat < z.toNat
          · simp [show x.toNat < z.toNat by omega]
          · by_cases hzy : z.toNat < y.toNat
            · simp [hyz, hzy] at hbc
            · have : y.toNat = z.toNat := by omega
              simp [show x.toNat < z.toNat by omega]
        · by_cases hyx : y.toNat < x.toNat
          · simp [hxy, hyx] at hab
          · have hxyeq : x.toNat = y.toNat := by omega
            by_cases hyz : y.toNat < z.toNat
            · simp [show x.toNat < z.toNat by omega]
            · by_cases hzy : z.toNat < y.toNat
              · simp [hyz, hzy] at hbc
              · simp only [hxy, if_false, hyx] at hab
                simp only [hyz, if_false, hzy] at hbc
                simp only [show ¬ x.toNat < z.toNat by omega, if_false,
                  show ¬ z.toNat < x.toNat by omega]
                exact ih ys zs (by simpa using hab) (by simpa using hbc)

theorem pyLtStr_irrefl (s : String) : pyLtStr s s = false := lexLtChars_irrefl s.data

theorem pyLtStr_trans {a b c : String} (h1 : pyLtStr a b = true) (h2 : pyLtStr b c = true) :
    pyLtStr a c = true := lexLtChars_trans a.data b.data c.data h1 h2

theorem lexLtChars_asymm (a : List Char) :
    ∀ b, lexLtChars a b = true → lexLtChars b a = false := by
  intro b hab
  by_contra hba
  rw [Bool.not_eq_false] at hba
  have := lexLtChars_trans a b a hab hba
  rw [lexLtChars_irrefl] at this
  cases this

theorem pyLtStr_asymm {a b : String} (h : pyLtStr a b = true) : pyLtStr b a = false :=
  lexLtChars_asymm a.data b.data h

theorem keysStrictSorted_cons (l : List String) :
    ∀ a, keysStrictSorted (a :: l) = true →
      keysStrictSorted l = true ∧ ∀ b ∈ l, pyLtStr a b = true := by
  induction l with
  | nil => intro a _; exact ⟨rfl, by simp⟩
  | cons b r ih =>
    intro a h
    simp only [keysStrictSorted, Bool.and_eq_true] at h
    obtain ⟨hab, hbr⟩ := h
    obtain ⟨hr, hall⟩ := ih b hbr
    refine ⟨hbr, ?_⟩
    intro x hx
    rcases List.mem_cons.mp hx with hxb | hxr
    · rw [hxb]; exact hab
    · exact pyLtStr_trans hab (hall x hxr)

theorem objGet_of_mem_sorted (fs : List (String × Json))
    (h : keysStrictSorted (listKeys fs) = true) (k : String) (v : Json)
    (hm : (k, v) ∈ fs) : objGet fs k = some v := by
  induction fs with
  | nil => simp at hm
  | cons p rest ih =>
    obtain ⟨k1, v1⟩ := p
    have hh := keysStrictSorted_cons (listKeys rest) k1 h
    rcases List.mem_cons.mp hm with hhd | htl
    · injection hhd with he1 he2
      rw [he1, he2]
      simp [objGet, alistGet]
    · have hk1k : ¬ k1 = k := by
        intro he
        have hkmem : k ∈ listKeys rest := by
          subst he
          exact List.mem_map.mpr ⟨(k1, v), htl, rfl⟩
        have := hh.2 k1 (by rwa [he]) 
        rw [he] at this
        rw [pyLtStr_irrefl] at this
        cases this
      simp only [objGet, alistGet, hk1k, if_false]
      exact ih hh.1 htl

theorem alistSet_append {α : Type} (acc : List (String × α)) (k : String) (v : α)
    (hk : ∀ q ∈ acc, q.1 ≠ k) : alistSet acc k v = acc ++ [(k, v)] := by
  induction acc with
  | nil => rfl
  | cons q rest ih =>
    obtain ⟨k2, v2⟩ := q
    have hne : ¬ k2 = k := hk (k2, v2) (by simp)
    simp only [alistSet, hne, if_false, List.cons_append, List.cons.injEq, true_and]
    exact ih (fun q hq => hk q (by simp [hq]))

theorem sortStrings_sorted_id (l : List String) (h : keysStrictSorted l = true) :
    sortStrings l = l := by
  induction l with
  | nil => rfl
  | cons x r ih =>
    have hh := keysStrictSorted_cons r x h
    rw [sortStrings, ih hh.1]
    cases r with
    | nil => rfl
    | cons y r2 =>
      have hlt : pyLtStr y x = false := pyLtStr_asymm (hh.2 y (by simp))
      simp [insertKey, hlt]

theorem keysStrictSorted_nodup (l : List String) (h : keysStrictSorted l = true) :
    l.Nodup := by
  induction l with
  | nil => simp
  | cons a r ih =>
    have hh := keysStrictSorted_cons r a h
    refine List.nodup_cons.mpr ⟨?_, ih hh.1⟩
    intro hmem
    have := hh.2 a hmem
    rw [pyLtStr_irrefl] at this
    cases this

theorem canonicalFields_mem (fs : List (String × Json)) (h : canonicalFields fs = true) :
    ∀ p ∈ fs, canonicalB p.2 = true := by
  induction fs with
  | nil => simp
  | cons p rest ih =>
    simp only [canonicalFields, Bool.and_eq_true] at h
    intro q hq
    rcases List.mem_cons.mp hq with hq1 | hq2
    · rw [hq1]; exact h.1
    · exact ih h.2 q hq2

theorem canonicalList_mem (l : List Json) (h : canonicalList l = true) :
    ∀ x ∈ l, canonicalB x = true := by
  induction l with
  | nil => simp
  | cons x rest ih =>
    simp only [canonicalList, Bool.and_eq_true] at h
    intro y hy
    rcases List.mem_cons.mp hy with hy1 | hy2
    · rw [hy1]; exact h.1
    · exact ih h.2 y hy2

theorem arrFieldsOk_mem (fs : List (String × Json)) (h : arrFieldsOk fs = true) :
    ∀ p ∈ fs, arraySafeB p.2 = true := by
  induction fs with
  | nil => simp
  | cons p rest ih =>
    simp only [arrFieldsOk, Bool.and_eq_true] at h
    intro q hq
    rcases List.mem_cons.mp hq with hq1 | hq2
    · rw [hq1]; exact h.1
    · exact ih h.2 q hq2

theorem arrItemsOk_mem (l : List Json) (h : arrItemsOk l = true) :
    ∀ x ∈ l, elemOkB x = true ∧ arraySafeB x = true := by
  induction l with
  | nil => simp
  | cons x rest ih =>
    simp only [arrItemsOk, Bool.and_eq_true] at h
    intro y hy
    rcases List.mem_cons.mp hy with hy1 | hy2
    · rw [hy1]; exact ⟨h.1.1, h.1.2⟩
    · exact ih h.2 y hy2

theorem normItems_id (dp : List String) (its : List Json) :
    ∀ (fuel : Nat), needI its ≤ fuel →
      (∀ x ∈ its, ∀ fuel2, needJ x ≤ fuel2 → ∀ σ2 sp2,
        iter_normalize fuel2 σ2 dp x sp2 = .ok (x, σ2)) →
      ∀ (σ : Store) (sp : List String) (idx : Nat) (acc : List Json),
        normItems fuel σ dp its sp idx acc = .ok (acc ++ its, σ) := by
  induction its with
  | nil =>
    intro fuel hfuel _ σ sp idx acc
    cases fuel with
    | zero => simp [needI] at hfuel
    | succ f => simp [normItems]
  | cons x r ih =>
    intro fuel hfuel hx σ sp idx acc
    cases fuel with
    | zero => simp [needI] at hfuel
    | succ f =>
      simp only [needI] at hfuel
      have hmax : max (needJ x) (needI r) ≤ f := by omega
      obtain ⟨hJ, hI⟩ := Nat.max_le.mp hmax
      simp only [normItems, hx x (by simp) f hJ σ (sp ++ [toString idx])]
      rw [ih f hI (fun y hy => hx y (by simp [hy])) σ sp (idx + 1) (acc ++ [x])]
      simp

theorem normFields_id (dp : List String) (all : List (String × Json))
    (fs : List (String × Json)) :
    ∀ (fuel : Nat), needF fs ≤ fuel →
      (∀ p ∈ fs, objGet all p.1 = some p.2) →
      (fs.map Prod.fst).Nodup →
      (∀ p ∈ fs,
        (∀ vf, p.2 = Json.obj vf → ∀ fuel2, needV p.2 ≤ fuel2 → ∀ σ2 sp2,
            iter_normalize fuel2 σ2 dp p.2 sp2 = .ok (p.2, σ2)) ∧
        (∀ its, p.2 = Json.arr its → ∀ fuel2, needV p.2 ≤ fuel2 →
            ∀ σ2 sp2 idx2 acc2,
            normItems fuel2 σ2 dp its sp2 idx2 acc2 = .ok (acc2 ++ its, σ2)) ∧
        (∀ s, p.2 = Json.str s → pyStrip s = s)) →
      ∀ (σ : Store) (sp : List String) (acc : List (String × Json)),
        (∀ p ∈ fs, ∀ q ∈ acc, q.1 ≠ p.1) →
        normFields fuel σ dp all (fs.map Prod.fst) sp acc = .ok (acc ++ fs, σ) := by
  induction fs with
  | nil =>
    intro fuel hfuel _ _ _ σ sp acc _
    cases fuel with
    | zero => simp [needF] at hfuel
    | succ f => simp [normFields]
  | cons p rest ih =>
    obtain ⟨k, v⟩ := p
    intro fuel hfuel hget hnd hv σ sp acc hdisj
    cases fuel with
    | zero => simp [needF] at hfuel
    | succ f =>
      simp only [needF] at hfuel
      have hmax : max (needV v) (needF rest) ≤ f := by omega
      obtain ⟨hVv, hFr⟩ := Nat.max_le.mp hmax
      have hnd' : (k :: rest.map Prod.fst).Nodup := by simpa using hnd
      have hk_not : k ∉ rest.map Prod.fst := (List.nodup_cons.mp hnd').1
      have hnd2 : (rest.map Prod.fst).Nodup := (List.nodup_cons.mp hnd').2
      have hknotacc : ∀ q ∈ acc, q.1 ≠ k := fun q hq => hdisj (k, v) (by simp) q hq
      have happ : ∀ z : Json, alistSet acc k z = acc ++ [(k, z)] :=
        fun z => alistSet_append acc k z hknotacc
      have hdisj2 : ∀ z : Json, ∀ p2 ∈ rest, ∀ q ∈ acc ++ [(k, z)], q.1 ≠ p2.1 := by
        intro z p2 hp2 q hq
        rcases List.mem_append.mp hq with hqa | hqk
        · exact hdisj p2 (by simp [hp2]) q hqa
        · have hqe : q = (k, z) := by simpa using hqk
          rw [hqe]
          intro hke
          exact hk_not (List.mem_map.mpr ⟨p2, hp2, hke.symm⟩)
      have hrec : ∀ (z : Json) (σ3 : Store),
          normFields f σ3 dp all (rest.map Prod.fst) sp (acc ++ [(k, z)]) =
            .ok ((acc ++ [(k, z)]) ++ rest, σ3) :=
        fun z σ3 => ih f hFr (fun q hq => hget q (by simp [hq])) hnd2
          (fun q hq => hv q (by simp [hq])) σ3 sp (acc ++ [(k, z)]) (hdisj2 z)
      have hvhead := hv (k, v) (by simp)
      simp only at hvhead
      cases v with
      | obj vf =>
        simp only [List.map_cons, normFields, hget (k, Json.obj vf) (by simp),
          hvhead.1 vf rfl f hVv σ (sp ++ [k]), objSet, happ, hrec]
        simp
      | arr its =>
        simp only [List.map_cons, normFields, hget (k, Json.arr its) (by simp),
          hvhead.2.1 its rfl f hVv σ (sp ++ [k]) 0 [], List.nil_append, objSet, happ, hrec]
        simp
      | str s =>
        simp only [List.map_cons, normFields, hget (k, Json.str s) (by simp),
          hvhead.2.2 s rfl, objSet, happ, hrec]
        simp
      | null =>
        simp only [List.map_cons, normFields, hget (k, Json.null) (by simp),
          objSet, happ, hrec]
        simp
      | boolv b =>
        simp only [List.map_cons, normFields, hget (k, Json.boolv b) (by simp),
          objSet, happ, hrec]
        simp
      | num m =>
        simp only [List.map_cons, normFields, hget (k, Json.num m) (by simp),
          objSet, happ, hrec]
        simp

theorem iter_normalize_canonical_id :
    ∀ (n : Nat) (t : Json), sizeOf t ≤ n →
      canonicalB t = true → arraySafeB t = true → elemOkB t = true →
      ∀ fuel, needJ t ≤ fuel → ∀ (σ : Store) (dp sp : List String),
        iter_normalize fuel σ dp t sp = .ok (t, σ) := by
  intro n
  induction n with
  | zero => intro t ht; cases t <;> simp at ht
  | succ n ih =>
    intro t hsz hc hs he fuel hfuel σ dp sp
    cases t with
    | null => simp [elemOkB] at he
    | arr l => simp [elemOkB] at he
    | str s =>
      cases fuel with
      | zero => simp [needJ] at hfuel
      | succ f => simp [iter_normalize]
    | num m =>
      cases fuel with
      | zero => simp [needJ] at hfuel
      | succ f => simp [iter_normalize]
    | boolv b =>
      cases fuel with
      | zero => simp [needJ] at hfuel
      | succ f => simp [iter_normalize]
    | obj fs =>
      cases fuel with
      | zero => simp [needJ] at hfuel
      | succ f =>
        simp only [canonicalB, Bool.and_eq_true] at hc
        obtain ⟨⟨hsort, hnoref⟩, hcf⟩ := hc
        simp only [listKeys] at hsort
        simp only [arraySafeB] at hs
        have hrefnone : objGet fs "$ref" = none := by
          cases hog : objGet fs "$ref" with
          | none => rfl
          | some x => rw [hog] at hnoref; simp at hnoref
        have hneed : needF fs ≤ f := by
          simp only [needJ] at hfuel
          omega
        have hv : ∀ p ∈ fs,
            (∀ vf, p.2 = Json.obj vf → ∀ fuel2, needV p.2 ≤ fuel2 → ∀ σ2 sp2,
                iter_normalize fuel2 σ2 dp p.2 sp2 = .ok (p.2, σ2)) ∧
            (∀ its, p.2 = Json.arr its → ∀ fuel2, needV p.2 ≤ fuel2 →
                ∀ σ2 sp2 idx2 acc2,
                normItems fuel2 σ2 dp its sp2 idx2 acc2 = .ok (acc2 ++ its, σ2)) ∧
            (∀ s, p.2 = Json.str s → pyStrip s = s) := by
          intro p hp
          have hszp : sizeOf p.2 ≤ n := by
            have h1 := List.sizeOf_lt_of_mem hp
            have h2 : sizeOf p.2 < sizeOf p := by
              obtain ⟨a, b⟩ := p
              simp
            simp at hsz
            omega
          have hcp := canonicalFields_mem fs hcf p hp
          have hsp2 := arrFieldsOk_mem fs hs p hp
          refine ⟨?_, ?_, ?_⟩
          · intro vf hvf fuel2 hfuel2 σ2 sp2
            refine ih p.2 hszp hcp hsp2 (by rw [hvf]; rfl) fuel2 ?_ σ2 dp sp2
            rw [hvf] at hfuel2 ⊢
            simpa [needJ, needV] using hfuel2
          · intro its hits fuel2 hfuel2 σ2 sp2 idx2 acc2
            refine normItems_id dp its fuel2 ?_ ?_ σ2 sp2 idx2 acc2
            · rw [hits] at hfuel2
              simpa [needV] using hfuel2
            · intro x hx fuel3 hfuel3 σ3 sp3
              have hcx : canonicalB x = true := by
                rw [hits] at hcp
                exact canonicalList_mem its (by simpa [canonicalB] using hcp) x hx
              have hsafe := arrItemsOk_mem its
                (by rw [hits] at hsp2; simpa [arraySafeB] using hsp2) x hx
              have hszx : sizeOf x ≤ n := by
                have h1 := List.sizeOf_lt_of_mem hx
                have h2 := List.sizeOf_lt_of_mem hp
                have h3 : sizeOf p.2 < sizeOf p := by
                  obtain ⟨a, b⟩ := p
                  simp
                rw [hits] at h3
                simp at hsz h3
                omega
              exact ih x hszx hcx hsafe.2 hsafe.1 fuel3 hfuel3 σ3 dp sp3
          · intro s hstr
            rw [hstr] at hcp
            simpa [canonicalB] using hcp
        simp only [iter_normalize, hrefnone, listKeys,
          sortStrings_sorted_id (fs.map Prod.fst) hsort]
        rw [normFields_id dp fs fs f hneed
          (fun p hp => objGet_of_mem_sorted fs (by simpa [listKeys] using hsort) p.1 p.2
            (by simpa using hp))
          (keysStrictSorted_nodup (fs.map Prod.fst) hsort)
          hv σ sp [] (by simp)]
        simp

/-- Claim C8 (amended): on a document whose tree is canonical (keys
sorted, strings trimmed, no `$ref`) and in which, additionally, no array
directly contains another array or a `null` (such elements make
`iter_normalize` raise), `normalize` returns the tree unchanged and leaves
the store untouched, given fuel at least the tree's `needJ` measure (the
fuel is the embedding's bound on Python's recursion depth). -/
theorem c8_amended (fuel : Nat) (σ : Store) (doc : OpenApiDocument) (sp : List String)
    (hc : canonicalB (.obj doc.fields) = true)
    (hs : arraySafeB (.obj doc.fields) = true)
    (hf : needJ (.obj doc.fields) ≤ fuel) :
    Tsp.normalize fuel σ doc sp = .ok (.obj doc.fields, σ) :=
  iter_normalize_canonical_id (sizeOf (Json.obj doc.fields)) (.obj doc.fields) le_rfl
    hc hs rfl fuel hf σ doc.path []

def c8badTree : Json := .obj [("a", .arr [.arr []])]

def c8badDoc : OpenApiDocument := ⟨[("a", .arr [.arr []])], ["p.json"]⟩

def c8run : Except Err (Json × Store) := Tsp.normalize 9 ⟨[], [], []⟩ c8badDoc []

/-- Claim C8 (counterexample): the tree `{"a": [[]]}` is canonical in the
claim's sense (keys sorted, no `$ref`, no untrimmed string), yet
`normalize` does not return it — the nested empty array reaches
`iter_normalize` as a list argument and raises (`AttributeError` on
`data.keys()`), so the claim fails as stated for this canonical tree. -/
theorem c8_counterexample :
    canonicalB c8badTree = true ∧ c8run = .error .attrError ∧ exceptIsOk c8run = false := by
  decide

def c8goodDoc : OpenApiDocument :=
  ⟨[("a", .num 1), ("b", .arr [.str "x", .obj [("c", .boolv true)]]), ("d", .str "t")],
   ["p.json"]⟩

/-- Claim C8 witness: the amended statement applied to a concrete
canonical, array-safe document. -/
theorem c8_witness :
    Tsp.normalize 10 ⟨[], [], []⟩ c8goodDoc [] = .ok (.obj c8goodDoc.fields, ⟨[], [], []⟩) :=
  c8_amended 10 ⟨[], [], []⟩ c8goodDoc [] (by decide) (by decide) (by decide)
